import Mathlib

/-!
# Verification of `librosa/segment.py` (recurrence and self-similarity core)

Shallow embedding of the module `src/librosa/segment.py`:

* matrices (dense ndarrays / scipy sparse matrices) are modelled as a
  `Mat α`: explicit row/column counts together with a total entry
  function; an entry value of `0` stands for an absent (unstored) entry,
  which matches the pipeline in `recurrence_matrix` because explicit
  zeros are removed by `eliminate_zeros()` and LIL-format assignment of
  `0` deletes the entry;
* exact rationals `ℚ` replace floating point in the `recurrence_matrix`
  pipeline, and real numbers `ℝ` replace floating point where the code
  applies `exp` / `log2` / powers; the IEEE value NaN, which the affinity
  branch can produce via `np.nanmedian([])`, is modelled by `Option ℝ`
  entries (`none` = NaN);
* raised Python exceptions are modelled with `Except Err`, where `Err`
  distinguishes `librosa.util.exceptions.ParameterError` from the other
  exception classes that the code can raise (`IndexError` from indexing
  a shape tuple out of range, `TypeError` from `np.clip(None, 0, None)`).
-/

/-- The exception kinds observable from the embedded functions:
`ParameterError` (librosa's own validation error), `IndexError`
(e.g. `shape[axis]` with `axis ≥ 2` on a 2-d array) and `TypeError`
(e.g. `np.clip(None, 0, None)`). -/
inductive Err where
  | paramError : Err
  | indexError : Err
  | typeError : Err
deriving DecidableEq, Repr

/-- A 2-d array (dense ndarray or sparse matrix viewed through its
entry values): explicit shape plus a total entry function.  Entries
outside the declared shape are irrelevant; the functions built below
always guard accesses by the shape. -/
structure Mat (α : Type) where
  rows : ℕ
  cols : ℕ
  entry : ℕ → ℕ → α

/-- Project the matrix out of an `Except` result, with a default junk
matrix in the error case.  Used to state concrete counterexamples
without existential binders. -/
def matOf {α : Type} (d : α) : Except Err (Mat α) → Mat α
  | .ok M => M
  | .error _ => ⟨0, 0, fun _ _ => d⟩

/-- Entry of a successful result, `none` if an exception was raised.
Used to state concrete counterexamples without existential binders. -/
def entryOfResult {α : Type} (r : Except Err (Mat α)) (i j : ℕ) : Option α :=
  match r with
  | .ok M => some (M.entry i j)
  | .error _ => none

/-! ## CoordinateTransform: `recurrence_to_lag` / `lag_to_recurrence`

`segment.py:291-388` and `segment.py:391-477`.  The per-index cyclic
rotation `util.roll_sparse(slice, ±i)` (librosa utility code outside
this module) is modelled from the spec: "the slice at offset `i` is
cyclically rotated by `−i` along the lag axis", and by `+i` for the
inverse.  A cyclic roll of a length-`m` slice by `-c` sends position
`r` to source position `(r + c) % m`; a roll by `+c` reads from
`(r + (m - c % m)) % m`.
-/

/-- Source index of output position `r` after cyclically rolling a
length-`m` slice forward by `c` (numpy `np.roll(x, +c)` semantics,
modelled from the spec for `util.roll_sparse`). -/
def rollIdx (m r c : ℕ) : ℕ := (r + (m - c % m)) % m

/-- `recurrence_to_lag(rec, pad, axis)` (`segment.py:291-388`).

* `axis = np.abs(axis)` (`segment.py:347`);
* non-square input raises `ParameterError` (`segment.py:349-351`);
* `t = rec.shape[axis]` (`segment.py:364`) raises `IndexError`, not
  `ParameterError`, when `|axis| ≥ 2` (a 2-d shape tuple has indices
  `0` and `1` only);
* with `pad`, axis `1-axis` is extended by `t` zeros
  (`segment.py:366-378`);
* slice `i` along `axis` is cyclically rolled by `-i`
  (`segment.py:382-384`); rolling by `-c` reads position `r` from
  `(r + c) % m`.  The padded region contributes zeros. -/
def recurrence_to_lag {α : Type} [Zero α] (rec : Mat α) (pad : Bool) (axis : Int) :
    Except Err (Mat α) :=
  let a := axis.natAbs
  if rec.rows ≠ rec.cols then .error .paramError
  else if 2 ≤ a then .error .indexError
  else if a = 1 then
    let t := rec.cols
    let m := if pad then rec.rows + t else rec.rows
    .ok ⟨m, t, fun r c =>
      if r < m ∧ c < t ∧ (r + c) % m < t then rec.entry ((r + c) % m) c else 0⟩
  else
    let t := rec.rows
    let m := if pad then rec.cols + t else rec.cols
    .ok ⟨t, m, fun r c =>
      if r < t ∧ c < m ∧ (c + r) % m < t then rec.entry r ((c + r) % m) else 0⟩

/-- `lag_to_recurrence(lag, axis)` (`segment.py:391-477`).

* `axis not in [0, 1, -1]` raises `ParameterError` (`segment.py:446-447`);
* then `axis = np.abs(axis)` (`segment.py:449`);
* a shape that is neither square nor has
  `shape[1-axis] == 2*shape[axis]` raises `ParameterError`
  (`segment.py:451-453`);
* slice `i` along `axis` is cyclically rolled by `+i`
  (`segment.py:466-469`), then axis `1-axis` is truncated back to
  length `t = shape[axis]` (`segment.py:471-473`). -/
def lag_to_recurrence {α : Type} [Zero α] (lag : Mat α) (axis : Int) :
    Except Err (Mat α) :=
  if axis ≠ 0 ∧ axis ≠ 1 ∧ axis ≠ -1 then .error .paramError
  else
    let a := axis.natAbs
    if lag.rows ≠ lag.cols ∧
        (if a = 1 then lag.rows ≠ 2 * lag.cols else lag.cols ≠ 2 * lag.rows) then
      .error .paramError
    else if a = 1 then
      let t := lag.cols
      let m := lag.rows
      .ok ⟨t, t, fun r c => if r < t ∧ c < t then lag.entry (rollIdx m r c) c else 0⟩
    else
      let t := lag.rows
      let m := lag.cols
      .ok ⟨t, t, fun r c => if r < t ∧ c < t then lag.entry r (rollIdx m c r) else 0⟩

/-- Rolling a length-`m` slice by `+c` after rolling it by `-c`
restores every position: `(rollIdx m r c + c) % m = r` for `r < m`. -/
theorem rollIdx_cancel (m r c : ℕ) (hr : r < m) : (rollIdx m r c + c) % m = r := by
  have hm : 0 < m := Nat.lt_of_le_of_lt (Nat.zero_le r) hr
  have hdm : c % m < m := Nat.mod_lt _ hm
  have hdc : m * (c / m) + c % m = c := Nat.div_add_mod c m
  rw [rollIdx, Nat.mod_add_mod]
  have h1 : r + (m - c % m) + c = r + m + m * (c / m) := by omega
  rw [h1, Nat.add_mul_mod_self_left, Nat.add_mod_right, Nat.mod_eq_of_lt hr]

/-- Evaluation of `recurrence_to_lag` with `pad=True` on a square
matrix along an axis with `natAbs = 1` (`axis = 1` or `axis = -1`). -/
theorem recurrence_to_lag_eval_one {α : Type} [Zero α] (rec : Mat α) (axis : Int)
    (h1 : axis.natAbs = 1) (hsq : rec.rows = rec.cols) :
    recurrence_to_lag rec true axis =
      .ok ⟨rec.rows + rec.cols, rec.cols, fun r c =>
        if r < rec.rows + rec.cols ∧ c < rec.cols ∧
            (r + c) % (rec.rows + rec.cols) < rec.cols then
          rec.entry ((r + c) % (rec.rows + rec.cols)) c else 0⟩ := by
  have hrc : (rec.rows ≠ rec.cols) = False := by simp [hsq]
  simp [recurrence_to_lag, h1, hrc]

/-- Evaluation of `recurrence_to_lag` with `pad=True` on a square
matrix along axis `0`. -/
theorem recurrence_to_lag_eval_zero {α : Type} [Zero α] (rec : Mat α)
    (hsq : rec.rows = rec.cols) :
    recurrence_to_lag rec true 0 =
      .ok ⟨rec.rows, rec.cols + rec.rows, fun r c =>
        if r < rec.rows ∧ c < rec.cols + rec.rows ∧
            (c + r) % (rec.cols + rec.rows) < rec.rows then
          rec.entry r ((c + r) % (rec.cols + rec.rows)) else 0⟩ := by
  have hrc : (rec.rows ≠ rec.cols) = False := by simp [hsq]
  simp [recurrence_to_lag, hrc]

/-- Evaluation of `lag_to_recurrence` on a doubled-shape (padded) lag
matrix along an axis with `natAbs = 1`. -/
theorem lag_to_recurrence_eval_one {α : Type} [Zero α] (lag : Mat α) (axis : Int)
    (h1 : axis.natAbs = 1) (hne : ¬(axis ≠ 0 ∧ axis ≠ 1 ∧ axis ≠ -1))
    (hsh : lag.rows = 2 * lag.cols) :
    lag_to_recurrence lag axis =
      .ok ⟨lag.cols, lag.cols, fun r c =>
        if r < lag.cols ∧ c < lag.cols then lag.entry (rollIdx lag.rows r c) c else 0⟩ := by
  have hcond : ((lag.rows ≠ lag.cols) ∧ lag.rows ≠ 2 * lag.cols) = False := by
    simp only [eq_iff_iff, iff_false, not_and, ne_eq, not_not]
    intro _; omega
  simp [lag_to_recurrence, h1, hne, hcond]

/-- Evaluation of `lag_to_recurrence` on a doubled-shape (padded) lag
matrix along axis `0`. -/
theorem lag_to_recurrence_eval_zero {α : Type} [Zero α] (lag : Mat α)
    (hsh : lag.cols = 2 * lag.rows) :
    lag_to_recurrence lag 0 =
      .ok ⟨lag.rows, lag.rows, fun r c =>
        if r < lag.rows ∧ c < lag.rows then lag.entry r (rollIdx lag.cols c r) else 0⟩ := by
  have hcond : ((lag.rows ≠ lag.cols) ∧ lag.cols ≠ 2 * lag.rows) = False := by
    simp only [eq_iff_iff, iff_false, not_and, ne_eq, not_not]
    intro _; omega
  simp [lag_to_recurrence, hcond]

/-- C1: for every square matrix `M` (dense ndarray or scipy sparse,
whose entry values `Mat` models) and every valid axis, applying
`recurrence_to_lag` with `pad=True` and then `lag_to_recurrence`
returns a matrix exactly equal to `M`: same shape and same entries. -/
theorem recurrence_lag_roundtrip {α : Type} [Zero α] (M : Mat α) (axis : Int)
    (hsq : M.rows = M.cols) (hax : axis = 0 ∨ axis = 1 ∨ axis = -1) :
    ∃ L R, recurrence_to_lag M true axis = .ok L ∧ lag_to_recurrence L axis = .ok R ∧
      R.rows = M.rows ∧ R.cols = M.cols ∧
      ∀ r c, r < M.rows → c < M.cols → R.entry r c = M.entry r c := by
  rcases hax with h | h | h
  · subst h
    refine ⟨_, _, recurrence_to_lag_eval_zero M hsq,
      lag_to_recurrence_eval_zero _ (by dsimp; omega), rfl, hsq, ?_⟩
    intro r c hr hc
    have hc' : c < M.cols + M.rows := by omega
    have hm : 0 < M.cols + M.rows := by omega
    have hx : rollIdx (M.cols + M.rows) c r < M.cols + M.rows := Nat.mod_lt _ hm
    have hcan : (rollIdx (M.cols + M.rows) c r + r) % (M.cols + M.rows) = c :=
      rollIdx_cancel _ c r hc'
    show (if r < M.rows ∧ c < M.rows then
        (if r < M.rows ∧ rollIdx (M.cols + M.rows) c r < M.cols + M.rows ∧
            (rollIdx (M.cols + M.rows) c r + r) % (M.cols + M.rows) < M.rows then
          M.entry r ((rollIdx (M.cols + M.rows) c r + r) % (M.cols + M.rows)) else 0)
      else 0) = M.entry r c
    rw [if_pos ⟨hr, by omega⟩, if_pos ⟨hr, hx, by rw [hcan]; omega⟩, hcan]
  · subst h
    refine ⟨_, _, recurrence_to_lag_eval_one M 1 rfl hsq,
      lag_to_recurrence_eval_one _ 1 rfl (by simp) (by dsimp; omega), hsq.symm, rfl, ?_⟩
    intro r c hr hc
    have hr' : r < M.rows + M.cols := by omega
    have hm : 0 < M.rows + M.cols := by omega
    have hx : rollIdx (M.rows + M.cols) r c < M.rows + M.cols := Nat.mod_lt _ hm
    have hcan : (rollIdx (M.rows + M.cols) r c + c) % (M.rows + M.cols) = r :=
      rollIdx_cancel _ r c hr'
    show (if r < M.cols ∧ c < M.cols then
        (if rollIdx (M.rows + M.cols) r c < M.rows + M.cols ∧ c < M.cols ∧
            (rollIdx (M.rows + M.cols) r c + c) % (M.rows + M.cols) < M.cols then
          M.entry ((rollIdx (M.rows + M.cols) r c + c) % (M.rows + M.cols)) c else 0)
      else 0) = M.entry r c
    rw [if_pos ⟨by omega, hc⟩, if_pos ⟨hx, hc, by rw [hcan]; omega⟩, hcan]
  · subst h
    refine ⟨_, _, recurrence_to_lag_eval_one M (-1) rfl hsq,
      lag_to_recurrence_eval_one _ (-1) rfl (by simp) (by dsimp; omega), hsq.symm, rfl, ?_⟩
    intro r c hr hc
    have hr' : r < M.rows + M.cols := by omega
    have hm : 0 < M.rows + M.cols := by omega
    have hx : rollIdx (M.rows + M.cols) r c < M.rows + M.cols := Nat.mod_lt _ hm
    have hcan : (rollIdx (M.rows + M.cols) r c + c) % (M.rows + M.cols) = r :=
      rollIdx_cancel _ r c hr'
    show (if r < M.cols ∧ c < M.cols then
        (if rollIdx (M.rows + M.cols) r c < M.rows + M.cols ∧ c < M.cols ∧
            (rollIdx (M.rows + M.cols) r c + c) % (M.rows + M.cols) < M.cols then
          M.entry ((rollIdx (M.rows + M.cols) r c + c) % (M.rows + M.cols)) c else 0)
      else 0) = M.entry r c
    rw [if_pos ⟨by omega, hc⟩, if_pos ⟨hx, hc, by rw [hcan]; omega⟩, hcan]

/-- A concrete 2×2 rational matrix used to witness the round trip. -/
def c1wM : Mat ℚ := ⟨2, 2, fun i j => (2 * i + j : ℚ)⟩

/-- Witness for C1: the round trip at a concrete 2×2 matrix with the
default axis `-1`. -/
theorem recurrence_lag_roundtrip_witness :
    c1wM.rows = c1wM.cols ∧ ((-1 : Int) = 0 ∨ (-1 : Int) = 1 ∨ (-1 : Int) = -1) ∧
    (∃ L R, recurrence_to_lag c1wM true (-1) = .ok L ∧ lag_to_recurrence L (-1) = .ok R ∧
      R.rows = c1wM.rows ∧ R.cols = c1wM.cols ∧
      ∀ r c, r < c1wM.rows → c < c1wM.cols → R.entry r c = c1wM.entry r c) :=
  ⟨rfl, by norm_num, recurrence_lag_roundtrip c1wM (-1) rfl (by norm_num)⟩

/-- C6 (amended): `recurrence_to_lag` raises `ParameterError` on every
non-square input; `lag_to_recurrence` raises `ParameterError` on every
invalid target axis and on every malformed shape; but `recurrence_to_lag`
given an invalid target axis raises `IndexError` (from `rec.shape[axis]`),
not `ParameterError`. -/
theorem lag_transforms_errors :
    (∀ (M : Mat ℚ) (pad : Bool) (axis : Int), M.rows ≠ M.cols →
      recurrence_to_lag M pad axis = .error .paramError) ∧
    (∀ (L : Mat ℚ) (axis : Int), axis ≠ 0 → axis ≠ 1 → axis ≠ -1 →
      lag_to_recurrence L axis = .error .paramError) ∧
    (∀ (L : Mat ℚ) (axis : Int), (axis = 0 ∨ axis = 1 ∨ axis = -1) →
      L.rows ≠ L.cols → (axis.natAbs = 1 → L.rows ≠ 2 * L.cols) →
      (axis.natAbs = 0 → L.cols ≠ 2 * L.rows) →
      lag_to_recurrence L axis = .error .paramError) ∧
    (∀ (M : Mat ℚ) (pad : Bool) (axis : Int), M.rows = M.cols → 2 ≤ axis.natAbs →
      recurrence_to_lag M pad axis = .error .indexError) := by
  refine ⟨?_, ?_, ?_, ?_⟩
  · intro M pad axis h
    simp only [recurrence_to_lag]
    rw [if_pos h]
  · intro L axis h0 h1 h2
    simp only [lag_to_recurrence]
    rw [if_pos ⟨h0, h1, h2⟩]
  · intro L axis hax hsq hone hzero
    have hnat : axis.natAbs = 0 ∨ axis.natAbs = 1 := by
      rcases hax with h | h | h <;> subst h <;> norm_num
    simp only [lag_to_recurrence]
    rw [if_neg (by tauto)]
    rcases hnat with hn | hn
    · rw [hn, if_pos ⟨hsq, by rw [if_neg (by omega)]; exact hzero hn⟩]
    · rw [hn, if_pos ⟨hsq, by rw [if_pos rfl]; exact hone hn⟩]
  · intro M pad axis hsq hge
    simp only [recurrence_to_lag]
    rw [if_neg (fun h => h hsq), if_pos hge]

/-- Witness for C6 (amended): each error mode at a concrete input. -/
theorem lag_transforms_errors_witness :
    recurrence_to_lag (⟨1, 2, fun _ _ => (0 : ℚ)⟩ : Mat ℚ) true 1 = .error .paramError ∧
    lag_to_recurrence (⟨2, 2, fun _ _ => (0 : ℚ)⟩ : Mat ℚ) 5 = .error .paramError ∧
    lag_to_recurrence (⟨3, 2, fun _ _ => (0 : ℚ)⟩ : Mat ℚ) 1 = .error .paramError ∧
    recurrence_to_lag (⟨2, 2, fun _ _ => (0 : ℚ)⟩ : Mat ℚ) true (-3) = .error .indexError :=
  ⟨lag_transforms_errors.1 _ true 1 (by norm_num),
   lag_transforms_errors.2.1 _ 5 (by norm_num) (by norm_num) (by norm_num),
   lag_transforms_errors.2.2.1 _ 1 (by norm_num) (by norm_num)
     (fun _ => by norm_num) (fun h => by norm_num at h),
   lag_transforms_errors.2.2.2 _ true (-3) rfl (by norm_num)⟩

/-- Counterexample for C6 as stated: `recurrence_to_lag` on a square
matrix with the invalid target axis `2` raises `IndexError`
(`rec.shape[axis]` on a 2-d array), not `ParameterError`. -/
theorem recurrence_to_lag_invalid_axis_counterexample :
    recurrence_to_lag (⟨2, 2, fun _ _ => (0 : ℚ)⟩ : Mat ℚ) true 2 = .error .indexError ∧
    Err.indexError ≠ Err.paramError :=
  ⟨rfl, by decide⟩

/-! ## GraphBuilder: `recurrence_matrix`

`segment.py:53-288`.  The external k-NN index (sklearn) is an explicit
collaborator in the spec; its output `knn.kneighbors_graph(mode=...)`
(`segment.py:237`) is taken as the input `G` of the embedded pipeline,
a `t × t` array of stored values (connectivity 0/1, or distances).
Entry value `0` stands for an unstored entry: LIL assignment of `0`
deletes entries, and `eliminate_zeros()` (`segment.py:272`) removes any
explicit zeros before the values are consumed, so stored ⟺ nonzero at
every point where it matters.  Exact rationals replace floats.

Pipeline, in source order:
* exclusion band `rec.setdiag(0, diag)` for `diag ∈ (-width, width)`
  (`segment.py:240-241`);
* per-row top-`k` pruning (`segment.py:244-252`): the nonzero entries of
  row `i` are ranked ascending by value (`np.argsort`; ties broken by
  column order — tie order among equal values is implementation-defined
  per the spec, modelled here by the deterministic column order) and all
  but the `k` smallest are set to `0`;
* self-loops (`segment.py:254-263`): `mode='connectivity'` writes `1` on
  the diagonal, `mode='affinity'` writes the sentinel `-1`, and
  `mode='distance'` leaves the diagonal untouched;
* symmetrization `rec.minimum(rec.T)` (`segment.py:266-269`);
* mode finalization (`segment.py:274-283`).
-/

/-- Exclusion band (`segment.py:240-241`): zero every entry with
`|i - j| < width` (both truncated subtractions below `width` encodes
`|i - j| < width` on naturals). -/
def bandZero (G : ℕ → ℕ → ℚ) (width : ℕ) : ℕ → ℕ → ℚ :=
  fun i j => if i - j < width ∧ j - i < width then 0 else G i j

/-- Ascending rank of the stored entry `(i, j)` among the stored entries
of row `i` (`segment.py:244-251`): the number of stored entries of the
row that sort strictly before it (smaller value, or equal value at an
earlier column). -/
def rankLT (R : ℕ → ℕ → ℚ) (t i j : ℕ) : ℕ :=
  ((List.range t).filter fun q =>
    decide (R i q ≠ 0 ∧ (R i q < R i j ∨ (R i q = R i j ∧ q < j)))).length

/-- Top-`k` pruning (`segment.py:244-252`): keep a stored entry iff its
ascending rank in its row is below `k`; everything past the `k`-th
closest is squashed to `0`. -/
def pruneTopK (R : ℕ → ℕ → ℚ) (t k : ℕ) : ℕ → ℕ → ℚ :=
  fun i j => if R i j ≠ 0 ∧ rankLT R t i j < k then R i j else 0

/-- Self-loop policy (`segment.py:254-263`): when `self` is set,
`mode='connectivity'` puts `1` on the main diagonal, `mode='affinity'`
puts the sentinel `-1` (so the loop survives symmetrization and
zero-elimination without disturbing the bandwidth statistics), and
`mode='distance'` leaves the diagonal unchanged. -/
def selfDiag (R : ℕ → ℕ → ℚ) (self : Bool) (mode : String) : ℕ → ℕ → ℚ :=
  fun i j =>
    if self ∧ i = j then
      if mode = "connectivity" then 1 else if mode = "affinity" then -1 else R i j
    else R i j

/-- Mutual-neighbor symmetrization `rec.minimum(rec.T)`
(`segment.py:266-269`), applied only when `sym` is set. -/
def symmetrize (R : ℕ → ℕ → ℚ) (sym : Bool) : ℕ → ℕ → ℚ :=
  fun i j => if sym then min (R i j) (R j i) else R i j

/-- Maximum of a list of rationals (the reduction scipy performs over
the stored values of a row); junk value `0` on the empty list, which is
never consulted. -/
def listMax : List ℚ → ℚ
  | [] => 0
  | [v] => v
  | v :: w :: vs => max v (listMax (w :: vs))

/-- Insertion step of the sort underlying `np.median`. -/
def insortQ (x : ℚ) : List ℚ → List ℚ
  | [] => [x]
  | y :: ys => if x ≤ y then x :: y :: ys else y :: insortQ x ys

/-- Ascending insertion sort of a list of rationals (the sort
underlying `np.median`). -/
def sortQ : List ℚ → List ℚ
  | [] => []
  | x :: xs => insortQ x (sortQ xs)

/-- `np.nanmedian` on a NaN-free list: `none` on the empty list (numpy
returns NaN there), otherwise the middle element of the sorted list, or
the mean of the two middle elements for even length. -/
def median (l : List ℚ) : Option ℚ :=
  if l = [] then none
  else
    let s := sortQ l
    let n := l.length
    if n % 2 = 1 then some (s.getD (n / 2) 0)
    else some ((s.getD (n / 2 - 1) 0 + s.getD (n / 2) 0) / 2)

/-- The stored (nonzero) values of row `i` restricted to the matrix
width `t`, in column order. -/
def rowNonzeroVals (R : ℕ → ℕ → ℚ) (t i : ℕ) : List ℚ :=
  ((List.range t).filter fun j => decide (R i j ≠ 0)).map fun j => R i j

/-- The contribution of row `i` to `rec.max(axis=1).data` (scipy CSR
max along an axis): rows with no stored entry contribute nothing; a row
that is not full has its implicit zeros participate in the max; a
resulting `0` is not stored and so is masked out of `.data`. -/
def rowDataVal (R : ℕ → ℕ → ℚ) (t i : ℕ) : Option ℚ :=
  let vals := rowNonzeroVals R t i
  if vals = [] then none
  else
    let m0 := listMax vals
    let m := if vals.length = t then m0 else max m0 0
    if m = 0 then none else some m

/-- `rec.max(axis=1).data` (`segment.py:278`): the stored row maxima. -/
def rowMaxData (R : ℕ → ℕ → ℚ) (t : ℕ) : List ℚ :=
  (List.range t).filterMap (rowDataVal R t)

/-- Exact ceiling square root on naturals, modelling
`np.ceil(np.sqrt(n))` for integer `n` (`segment.py:208`). -/
def ceilSqrt (n : ℕ) : ℕ :=
  if Nat.sqrt n * Nat.sqrt n = n then Nat.sqrt n else Nat.sqrt n + 1

/-- Default neighbor count (`segment.py:206-210`):
`k = 2*ceil(sqrt(t - 2*width + 1))` when `t > 2*width + 1`, else `2`. -/
def kDefault (t width : ℕ) : ℕ :=
  if 2 * width + 1 < t then 2 * ceilSqrt (t - 2 * width + 1) else 2

/-- Bandwidth validation condition (`segment.py:212-215`): an explicit
bandwidth must be strictly positive. -/
def bwInvalid : Option ℚ → Bool
  | some b => decide (b ≤ 0)
  | none => false

/-- Mode finalization (`segment.py:274-283`), producing the observable
entries of the returned matrix (out-of-range positions read as `0`):

* `connectivity`: `astype(bool)`, i.e. `1` exactly on stored entries;
* `affinity`: the bandwidth is the given one, or else
  `np.nanmedian(rec.max(axis=1).data)` — `none` (NaN) when `.data` is
  empty; stored negatives (the `-1` sentinels) are reset to `0` and
  every stored value `d` becomes `exp(d / (-bandwidth))`; a NaN
  bandwidth makes every stored entry NaN (`none`);
* `distance`: raw values unchanged. -/
noncomputable def finalize (R : ℕ → ℕ → ℚ) (t : ℕ) (mode : String) (bw? : Option ℚ) :
    Mat (Option ℝ) :=
  if mode = "connectivity" then
    ⟨t, t, fun i j => if i < t ∧ j < t ∧ R i j ≠ 0 then some 1 else some 0⟩
  else if mode = "affinity" then
    let bw : Option ℚ :=
      match bw? with
      | some b => some b
      | none => median (rowMaxData R t)
    ⟨t, t, fun i j =>
      if i < t ∧ j < t ∧ R i j ≠ 0 then
        match bw with
        | none => none
        | some b => some (Real.exp (((max (R i j) 0 : ℚ) : ℝ) / (-((b : ℚ) : ℝ))))
      else some 0⟩
  else
    ⟨t, t, fun i j => if i < t ∧ j < t then some ((R i j : ℚ) : ℝ) else some 0⟩

/-- `recurrence_matrix(data, k, width, metric, sym, sparse, mode,
bandwidth, self, axis)` (`segment.py:53-288`), embedded over the k-NN
graph `G` returned by the external index for the `t` observations.
`metric` and `axis` only shape the collaborator query, and `sparse`
only selects the output container (`segment.py:285-286`, identical
entries), so they do not appear.  Validation (`segment.py:199-215`), in
source order: `width` bounds, `mode` membership, positive bandwidth;
then the pure pipeline runs. -/
noncomputable def recurrence_matrix (G : ℕ → ℕ → ℚ) (t : ℕ) (k? : Option ℕ)
    (width : ℕ) (sym : Bool) (self : Bool) (mode : String) (bw? : Option ℚ) :
    Except Err (Mat (Option ℝ)) :=
  if width < 1 ∨ t < width then .error .paramError
  else if ¬(mode = "connectivity" ∨ mode = "distance" ∨ mode = "affinity") then
    .error .paramError
  else if bwInvalid bw? then .error .paramError
  else
    .ok (finalize
      (symmetrize
        (selfDiag (pruneTopK (bandZero G width) t (k?.getD (kDefault t width))) self mode)
        sym)
      t mode bw?)

/-- The maximum of a nonempty list is one of its elements. -/
theorem listMax_mem : ∀ (l : List ℚ), l ≠ [] → listMax l ∈ l
  | [], h => absurd rfl h
  | [v], _ => by simp [listMax]
  | v :: w :: vs, _ => by
    rcases max_choice v (listMax (w :: vs)) with h | h
    · simp [listMax, h]
    · have := listMax_mem (w :: vs) (by simp)
      simp only [listMax, h]
      exact List.mem_cons_of_mem _ this

/-- Every element of a list is at most its maximum. -/
theorem le_listMax : ∀ (l : List ℚ) (x : ℚ), x ∈ l → x ≤ listMax l
  | [], x, h => absurd h (by simp)
  | [v], x, h => by
    simp at h
    simp [listMax, h]
  | v :: w :: vs, x, h => by
    rcases List.mem_cons.mp h with h' | h'
    · simp [listMax, h']
    · exact le_trans (le_listMax (w :: vs) x h') (le_max_right _ _)

/-- Inserting preserves length (plus one). -/
theorem length_insortQ (x : ℚ) : ∀ (l : List ℚ), (insortQ x l).length = l.length + 1
  | [] => rfl
  | y :: ys => by
    by_cases h : x ≤ y <;> simp [insortQ, h, length_insortQ x ys]

/-- Elements of an insertion are the inserted value or old elements. -/
theorem mem_insortQ (x a : ℚ) : ∀ (l : List ℚ), a ∈ insortQ x l → a = x ∨ a ∈ l
  | [] => by simp [insortQ]
  | y :: ys => by
    by_cases h : x ≤ y <;> simp only [insortQ, h, if_true, if_false, ite_true, ite_false]
    · intro hm
      rcases List.mem_cons.mp hm with h' | h'
      · exact Or.inl h'
      · exact Or.inr h'
    · intro hm
      rcases List.mem_cons.mp hm with h' | h'
      · exact Or.inr (List.mem_cons.mpr (Or.inl h'))
      · rcases mem_insortQ x a ys h' with h'' | h''
        · exact Or.inl h''
        · exact Or.inr (List.mem_cons.mpr (Or.inr h''))

/-- Sorting preserves length. -/
theorem length_sortQ : ∀ (l : List ℚ), (sortQ l).length = l.length
  | [] => rfl
  | x :: xs => by simp [sortQ, length_insortQ, length_sortQ xs]

/-- Elements of the sorted list are elements of the original list. -/
theorem mem_sortQ (a : ℚ) : ∀ (l : List ℚ), a ∈ sortQ l → a ∈ l
  | [] => by simp [sortQ]
  | x :: xs => by
    intro h
    rcases mem_insortQ x a (sortQ xs) h with h' | h'
    · simp [h']
    · exact List.mem_cons_of_mem _ (mem_sortQ a xs h')

/-- A `getD` access within bounds returns an element of the list. -/
theorem getD_mem_of_lt (l : List ℚ) (i : ℕ) (h : i < l.length) : l.getD i 0 ∈ l := by
  rw [List.getD_eq_getElem l 0 h]
  exact List.getElem_mem h

/-- The median of a nonempty list of positive rationals is positive. -/
theorem median_pos (l : List ℚ) (hl : ∀ x ∈ l, 0 < x) (b : ℚ)
    (hb : median l = some b) : 0 < b := by
  by_cases he : l = []
  · simp [median, he] at hb
  · have hlen : 0 < l.length := List.length_pos.mpr he
    have hmem : ∀ i, i < l.length → 0 < (sortQ l).getD i 0 := by
      intro i hi
      exact hl _ (mem_sortQ _ _ (getD_mem_of_lt _ i (by rw [length_sortQ]; omega)))
    simp only [median, if_neg he] at hb
    by_cases hpar : l.length % 2 = 1
    · rw [if_pos hpar] at hb
      exact Option.some.inj hb ▸ hmem (l.length / 2) (by omega)
    · rw [if_neg hpar] at hb
      have h1 := hmem (l.length / 2 - 1) (by omega)
      have h2 := hmem (l.length / 2) (by omega)
      have hbe : ((sortQ l).getD (l.length / 2 - 1) 0 + (sortQ l).getD (l.length / 2) 0) / 2 = b :=
        Option.some.inj hb
      rw [← hbe]
      linarith

/-- Inversion of a successful `recurrence_matrix` call: the validation
passed, and the result is the finalized pipeline output. -/
theorem recurrence_matrix_ok_inv (G : ℕ → ℕ → ℚ) (t : ℕ) (k? : Option ℕ)
    (width : ℕ) (sym : Bool) (self : Bool) (mode : String) (bw? : Option ℚ)
    (M : Mat (Option ℝ))
    (h : recurrence_matrix G t k? width sym self mode bw? = .ok M) :
    1 ≤ width ∧ width ≤ t ∧
    (mode = "connectivity" ∨ mode = "distance" ∨ mode = "affinity") ∧
    (∀ b, bw? = some b → 0 < b) ∧
    M = finalize
      (symmetrize
        (selfDiag (pruneTopK (bandZero G width) t (k?.getD (kDefault t width))) self mode)
        sym)
      t mode bw? := by
  rw [recurrence_matrix] at h
  split_ifs at h with h1 h2 h3
  all_goals simp only [Except.ok.injEq, reduceCtorEq] at h
  refine ⟨by omega, by omega, h2, ?_, h.symm⟩
  intro b hb
  subst hb
  simp only [bwInvalid, decide_eq_true_eq] at h3
  exact lt_of_not_le (by simpa using h3)

/-- `bandZero` never stores a value inside the exclusion band. -/
theorem bandZero_in_band (G : ℕ → ℕ → ℚ) (width i j : ℕ)
    (h : i - j < width ∧ j - i < width) : bandZero G width i j = 0 := by
  simp [bandZero, h]

/-- Pruning maps zero entries to zero and otherwise keeps the value. -/
theorem pruneTopK_eq_zero (R : ℕ → ℕ → ℚ) (t k i j : ℕ) (h : R i j = 0) :
    pruneTopK R t k i j = 0 := by
  simp [pruneTopK, h]

/-- The pipeline value at a banded off-diagonal position (or a banded
diagonal position without self-loops) is zero. -/
theorem pipeline_banded_zero (G : ℕ → ℕ → ℚ) (t k width : ℕ) (sym self : Bool)
    (mode : String) (i j : ℕ) (hband : i - j < width ∧ j - i < width)
    (hself : self = false ∨ i ≠ j) :
    symmetrize (selfDiag (pruneTopK (bandZero G width) t k) self mode) sym i j = 0 := by
  have key : ∀ p q : ℕ, p - q < width ∧ q - p < width → (self = false ∨ p ≠ q) →
      selfDiag (pruneTopK (bandZero G width) t k) self mode p q = 0 := by
    intro p q hb hs
    have hz : pruneTopK (bandZero G width) t k p q = 0 :=
      pruneTopK_eq_zero _ _ _ _ _ (bandZero_in_band G width p q hb)
    rcases hs with hs | hs
    · simp [selfDiag, hs, hz]
    · simp [selfDiag, hs, hz]
  have h1 : selfDiag (pruneTopK (bandZero G width) t k) self mode i j = 0 :=
    key i j hband hself
  have h2 : selfDiag (pruneTopK (bandZero G width) t k) self mode j i = 0 :=
    key j i ⟨hband.2, hband.1⟩ (by tauto)
  cases sym <;> simp [symmetrize, h1, h2]

/-- C2 (amended): the output of `recurrence_matrix` has no nonzero
entry at `(i, j)` with `|i - j| < width`, EXCEPT on the main diagonal
when self-loops are requested; off-diagonal band positions are always
zero, and diagonal positions are zero whenever `self=False`. -/
theorem recurrence_matrix_band_zero (G : ℕ → ℕ → ℚ) (t : ℕ) (k? : Option ℕ)
    (width : ℕ) (sym : Bool) (self : Bool) (mode : String) (bw? : Option ℚ)
    (M : Mat (Option ℝ))
    (h : recurrence_matrix G t k? width sym self mode bw? = .ok M)
    (i j : ℕ) (hband : i - j < width ∧ j - i < width)
    (hself : self = false ∨ i ≠ j) :
    M.entry i j = some 0 := by
  obtain ⟨-, -, hmode, -, hM⟩ :=
    recurrence_matrix_ok_inv G t k? width sym self mode bw? M h
  have hz := pipeline_banded_zero G t (k?.getD (kDefault t width)) width sym self mode
    i j hband hself
  rw [hM]
  rcases hmode with hm | hm | hm <;> subst hm <;> simp [finalize, hz]

/-- The k-NN connectivity graph of two observations at distance `1`:
each is the other's neighbor. -/
def c2G : ℕ → ℕ → ℚ :=
  fun i j => if (i = 0 ∧ j = 1) ∨ (i = 1 ∧ j = 0) then 1 else 0

/-- Counterexample for C2 as stated: with `self=True` (an allowed
setting of the other parameters) and `width=1`, the main diagonal is
populated (`rec.setdiag(1)`, `segment.py:256`), so position `(0,0)`
with `|0-0| = 0 < width` holds the nonzero value `1`. -/
theorem recurrence_matrix_band_counterexample :
    ¬ (∀ i j : ℕ, i - j < 1 → j - i < 1 →
      (matOf (some 0)
        (recurrence_matrix c2G 2 (some 1) 1 false true "connectivity" none)).entry i j
        = some 0) := by
  intro hAll
  have h := hAll 0 0 (by decide) (by decide)
  have he : (matOf (some 0)
      (recurrence_matrix c2G 2 (some 1) 1 false true "connectivity" none)).entry 0 0
      = some 1 := rfl
  rw [he] at h
  exact absurd (Option.some.inj h) (by norm_num)

/-- The matrix produced in the C2 witness run (`self=False`). -/
noncomputable def c2wMat : Mat (Option ℝ) :=
  matOf (some 0) (recurrence_matrix c2G 2 (some 1) 1 false false "connectivity" none)

/-- Witness for C2 (amended): a concrete run with `self=False` where
the banded position `(0,0)` is zero. -/
theorem recurrence_matrix_band_zero_witness :
    recurrence_matrix c2G 2 (some 1) 1 false false "connectivity" none = .ok c2wMat ∧
    ((0 : ℕ) - 0 < 1 ∧ (0 : ℕ) - 0 < 1) ∧ (false = false ∨ (0 : ℕ) ≠ 0) ∧
    c2wMat.entry 0 0 = some 0 :=
  ⟨rfl, by decide, Or.inl rfl,
    recurrence_matrix_band_zero c2G 2 (some 1) 1 false false "connectivity" none
      c2wMat rfl 0 0 (by decide) (Or.inl rfl)⟩

/-- Entry of the finalized matrix in connectivity mode. -/
theorem finalize_connectivity_entry (R : ℕ → ℕ → ℚ) (t : ℕ) (bw? : Option ℚ)
    (i j : ℕ) :
    (finalize R t "connectivity" bw?).entry i j =
      if i < t ∧ j < t ∧ R i j ≠ 0 then some 1 else some 0 := rfl

/-- Entry of the finalized matrix in distance mode. -/
theorem finalize_distance_entry (R : ℕ → ℕ → ℚ) (t : ℕ) (bw? : Option ℚ)
    (i j : ℕ) :
    (finalize R t "distance" bw?).entry i j =
      if i < t ∧ j < t then some ((R i j : ℚ) : ℝ) else some 0 := rfl

/-- Entry of the finalized matrix in affinity mode. -/
theorem finalize_affinity_entry (R : ℕ → ℕ → ℚ) (t : ℕ) (bw? : Option ℚ)
    (i j : ℕ) :
    (finalize R t "affinity" bw?).entry i j =
      if i < t ∧ j < t ∧ R i j ≠ 0 then
        match (match bw? with
               | some b => some b
               | none => median (rowMaxData R t)) with
        | none => none
        | some b => some (Real.exp (((max (R i j) 0 : ℚ) : ℝ) / (-((b : ℚ) : ℝ))))
      else some 0 := rfl

/-- C4: with `sym=True` and `mode='connectivity'`, the matrix returned
by `recurrence_matrix` equals its own transpose. -/
theorem recurrence_matrix_sym_connectivity (G : ℕ → ℕ → ℚ) (t : ℕ) (k? : Option ℕ)
    (width : ℕ) (self : Bool) (bw? : Option ℚ) (M : Mat (Option ℝ))
    (h : recurrence_matrix G t k? width true self "connectivity" bw? = .ok M)
    (i j : ℕ) : M.entry i j = M.entry j i := by
  obtain ⟨-, -, -, -, hM⟩ :=
    recurrence_matrix_ok_inv G t k? width true self "connectivity" bw? M h
  have hsym :
      symmetrize (selfDiag (pruneTopK (bandZero G width) t (k?.getD (kDefault t width)))
        self "connectivity") true i j =
      symmetrize (selfDiag (pruneTopK (bandZero G width) t (k?.getD (kDefault t width)))
        self "connectivity") true j i := by
    simp [symmetrize, min_comm]
  rw [hM, finalize_connectivity_entry, finalize_connectivity_entry, hsym]
  have hiff : (i < t ∧ j < t ∧
      symmetrize (selfDiag (pruneTopK (bandZero G width) t (k?.getD (kDefault t width)))
        self "connectivity") true j i ≠ 0) ↔
      (j < t ∧ i < t ∧
      symmetrize (selfDiag (pruneTopK (bandZero G width) t (k?.getD (kDefault t width)))
        self "connectivity") true j i ≠ 0) := by tauto
  simp only [hiff]

/-- The matrix produced in the C4 witness run. -/
noncomputable def c4wMat : Mat (Option ℝ) :=
  matOf (some 0) (recurrence_matrix c2G 2 (some 1) 1 true false "connectivity" none)

/-- Witness for C4: a concrete symmetric run. -/
theorem recurrence_matrix_sym_connectivity_witness :
    recurrence_matrix c2G 2 (some 1) 1 true false "connectivity" none = .ok c4wMat ∧
    c4wMat.entry 0 1 = c4wMat.entry 1 0 :=
  ⟨rfl, recurrence_matrix_sym_connectivity c2G 2 (some 1) 1 false none c4wMat rfl 0 1⟩

/-- C7: `recurrence_matrix` raises `ParameterError` — producing no
output — exactly when `width < 1` or `width > t`, or the mode is
unknown, or a supplied bandwidth is nonpositive; all other parameter
values pass the pre-flight checks. -/
theorem recurrence_matrix_validation (G : ℕ → ℕ → ℚ) (t : ℕ) (k? : Option ℕ)
    (width : ℕ) (sym : Bool) (self : Bool) (mode : String) (bw? : Option ℚ) :
    recurrence_matrix G t k? width sym self mode bw? = .error .paramError ↔
      (width < 1 ∨ t < width ∨
        ¬(mode = "connectivity" ∨ mode = "distance" ∨ mode = "affinity") ∨
        ∃ b, bw? = some b ∧ b ≤ 0) := by
  constructor
  · intro herr
    by_contra hval
    push_neg at hval
    obtain ⟨hv1, hv2, hv3, hv4⟩ := hval
    have hbw : bwInvalid bw? = false := by
      cases bw? with
      | none => rfl
      | some b =>
        have hpos := hv4 b rfl
        simp only [bwInvalid, decide_eq_false_iff_not]
        exact not_le.mpr hpos
    rw [recurrence_matrix, if_neg (by omega), if_neg (not_not_intro hv3), hbw] at herr
    simp at herr
  · intro hval
    rw [recurrence_matrix]
    by_cases hc1 : width < 1 ∨ t < width
    · rw [if_pos hc1]
    · rw [if_neg hc1]
      by_cases hc2 : mode = "connectivity" ∨ mode = "distance" ∨ mode = "affinity"
      · rw [if_neg (not_not_intro hc2)]
        obtain ⟨b, hb, hble⟩ : ∃ b, bw? = some b ∧ b ≤ 0 := by tauto
        rw [if_pos (by subst hb; simp [bwInvalid, hble])]
      · rw [if_pos hc2]

/-- With a nonnegative k-NN graph (distances are nonnegative), the
pruned band-filtered matrix is entrywise nonnegative. -/
theorem pruneTopK_bandZero_nonneg (G : ℕ → ℕ → ℚ) (width t k : ℕ)
    (hG : ∀ i j, 0 ≤ G i j) (i j : ℕ) :
    0 ≤ pruneTopK (bandZero G width) t k i j := by
  unfold pruneTopK bandZero
  split_ifs <;> first | exact le_refl 0 | exact hG i j

/-- In affinity mode, a negative value after the self-loop step can
only be the `-1` sentinel on the main diagonal. -/
theorem selfDiag_affinity_neg (R : ℕ → ℕ → ℚ) (self : Bool)
    (hR : ∀ i j, 0 ≤ R i j) (i j : ℕ)
    (h : selfDiag R self "affinity" i j < 0) : i = j := by
  unfold selfDiag at h
  split_ifs at h with h1 h2 h3
  · norm_num at h
  · exact h1.2
  · exact absurd rfl h3
  · exact absurd h (not_lt.mpr (hR i j))

/-- A negative value after symmetrization comes from a negative value
in the underlying matrix at the position or its transpose. -/
theorem symmetrize_neg (R : ℕ → ℕ → ℚ) (sym : Bool) (i j : ℕ)
    (h : symmetrize R sym i j < 0) : R i j < 0 ∨ R j i < 0 := by
  unfold symmetrize at h
  split_ifs at h
  · rcases min_lt_iff.mp h with h' | h'
    · exact Or.inl h'
    · exact Or.inr h'
  · exact Or.inl h

/-- The distance-mode self-loop step leaves every entry unchanged
(`segment.py:254-263` has no `mode='distance'` branch). -/
theorem selfDiag_distance (R : ℕ → ℕ → ℚ) (self : Bool) (i j : ℕ) :
    selfDiag R self "distance" i j = R i j := by
  unfold selfDiag
  split_ifs with h1 h2 h3
  · exact absurd h2 (by decide)
  · exact absurd h3 (by decide)
  · rfl
  · rfl

/-- Symmetrization preserves entrywise nonnegativity. -/
theorem symmetrize_nonneg (R : ℕ → ℕ → ℚ) (sym : Bool)
    (hR : ∀ i j, 0 ≤ R i j) (i j : ℕ) : 0 ≤ symmetrize R sym i j := by
  unfold symmetrize
  split_ifs
  · exact le_min (hR i j) (hR j i)
  · exact hR i j

/-- In affinity mode with `width ≥ 1`, the pipeline value on the main
diagonal is nonpositive (the exclusion band removes it; the self-loop
step can only write the `-1` sentinel). -/
theorem pipeline_affinity_diag_nonpos (G : ℕ → ℕ → ℚ) (t k width : ℕ)
    (sym self : Bool) (hw : 1 ≤ width) (i : ℕ) :
    symmetrize (selfDiag (pruneTopK (bandZero G width) t k) self "affinity") sym i i ≤ 0 := by
  have hz : pruneTopK (bandZero G width) t k i i = 0 :=
    pruneTopK_eq_zero _ _ _ _ _ (bandZero_in_band G width i i (by omega))
  have h3 : selfDiag (pruneTopK (bandZero G width) t k) self "affinity" i i ≤ 0 := by
    unfold selfDiag
    split_ifs with h1 h2 h3
    · exact absurd h2 (by decide)
    · norm_num
    · exact absurd rfl h3
    · rw [hz]
  unfold symmetrize
  split_ifs
  · exact le_trans (min_le_left _ _) h3
  · exact h3

/-- If a row is full (`t` stored entries), then every column holds a
stored (nonzero) value that appears in its value list. -/
theorem rowNonzeroVals_full (R : ℕ → ℕ → ℚ) (t i : ℕ)
    (h : (rowNonzeroVals R t i).length = t) :
    ∀ j, j < t → R i j ≠ 0 ∧ R i j ∈ rowNonzeroVals R t i := by
  have hlen : ((List.range t).filter fun j => decide (R i j ≠ 0)).length = t := by
    simpa [rowNonzeroVals] using h
  have hsub : ((List.range t).filter fun j => decide (R i j ≠ 0)).Sublist (List.range t) :=
    List.filter_sublist _
  have heq : ((List.range t).filter fun j => decide (R i j ≠ 0)) = List.range t :=
    hsub.eq_of_length (by rw [hlen, List.length_range])
  intro j hj
  have hjf : j ∈ (List.range t).filter fun j => decide (R i j ≠ 0) := by
    rw [heq]
    exact List.mem_range.mpr hj
  have hp : R i j ≠ 0 := by simpa using List.of_mem_filter hjf
  refine ⟨hp, ?_⟩
  rw [rowNonzeroVals]
  exact List.mem_map_of_mem _ hjf

/-- When `t ≥ 2` and negative pipeline values occur only on the main
diagonal, every stored row maximum is positive. -/
theorem rowMaxData_pos (R : ℕ → ℕ → ℚ) (t : ℕ)
    (hneg : ∀ i j, i < t → j < t → R i j < 0 → i = j) (ht : 2 ≤ t) :
    ∀ x ∈ rowMaxData R t, 0 < x := by
  intro x hx
  rw [rowMaxData, List.mem_filterMap] at hx
  obtain ⟨i, hi, hval⟩ := hx
  rw [List.mem_range] at hi
  simp only [rowDataVal] at hval
  by_cases hemp : rowNonzeroVals R t i = []
  · rw [if_pos hemp] at hval
    exact absurd hval (by simp)
  · rw [if_neg hemp] at hval
    by_cases hlen : (rowNonzeroVals R t i).length = t
    · rw [if_pos hlen] at hval
      by_cases hz : listMax (rowNonzeroVals R t i) = 0
      · rw [if_pos hz] at hval
        exact absurd hval (by simp)
      · rw [if_neg hz] at hval
        have hxveq : listMax (rowNonzeroVals R t i) = x := Option.some.inj hval
        by_contra hle
        have hx0 : x < 0 :=
          lt_of_le_of_ne (not_lt.mp hle) (fun h => hz (hxveq.trans h))
        have hall : ∀ j, j < t → j = i := by
          intro j hj
          obtain ⟨hp, hmem⟩ := rowNonzeroVals_full R t i hlen j hj
          have hle' : R i j ≤ x := hxveq ▸ le_listMax _ _ hmem
          exact (hneg i j hi hj (lt_of_le_of_lt hle' hx0)).symm
        have h0 := hall 0 (by omega)
        have h1 := hall 1 (by omega)
        omega
    · rw [if_neg hlen] at hval
      by_cases hz : max (listMax (rowNonzeroVals R t i)) 0 = 0
      · rw [if_pos hz] at hval
        exact absurd hval (by simp)
      · rw [if_neg hz] at hval
        have hxveq : max (listMax (rowNonzeroVals R t i)) 0 = x := Option.some.inj hval
        exact lt_of_le_of_ne (hxveq ▸ le_max_right _ _) (fun h => hz (hxveq.trans h.symm))

/-- C3 (amended): the nonzero entries of `recurrence_matrix` output lie
in the mode-specific range, where in affinity mode a nonzero entry is
either in `(0, 1]` or is NaN (`none`); NaN arises exactly from the
degenerate estimated bandwidth `np.nanmedian([])` when no row has a
stored positive maximum.  Connectivity entries are `0` or `1`;
distance entries are nonnegative (distances from the index are
nonnegative). -/
theorem recurrence_matrix_value_ranges (G : ℕ → ℕ → ℚ) (t : ℕ) (k? : Option ℕ)
    (width : ℕ) (sym : Bool) (self : Bool) (mode : String) (bw? : Option ℚ)
    (M : Mat (Option ℝ)) (hG : ∀ i j, 0 ≤ G i j)
    (h : recurrence_matrix G t k? width sym self mode bw? = .ok M) :
    (mode = "connectivity" → ∀ i j, M.entry i j = some 0 ∨ M.entry i j = some 1) ∧
    (mode = "distance" → ∀ i j, ∃ v : ℝ, M.entry i j = some v ∧ 0 ≤ v) ∧
    (mode = "affinity" → ∀ i j, M.entry i j = some 0 ∨ M.entry i j = none ∨
      ∃ v : ℝ, M.entry i j = some v ∧ 0 < v ∧ v ≤ 1) := by
  obtain ⟨hw1, hw2, hmode, hbw, hM⟩ :=
    recurrence_matrix_ok_inv G t k? width sym self mode bw? M h
  refine ⟨?_, ?_, ?_⟩ <;> intro hm <;> subst hm <;> intro i j
  · -- connectivity: the boolean cast leaves only 0 and 1
    rw [hM, finalize_connectivity_entry]
    split_ifs
    · exact Or.inr rfl
    · exact Or.inl rfl
  · -- distance: raw nonnegative distances are preserved
    rw [hM, finalize_distance_entry]
    have hR2 := pruneTopK_bandZero_nonneg G width t (k?.getD (kDefault t width)) hG
    have hR3 : ∀ p q, 0 ≤ selfDiag (pruneTopK (bandZero G width) t
        (k?.getD (kDefault t width))) self "distance" p q := by
      intro p q
      rw [selfDiag_distance]
      exact hR2 p q
    have hR4 := symmetrize_nonneg _ sym hR3
    split_ifs
    · exact ⟨_, rfl, by exact_mod_cast hR4 i j⟩
    · exact ⟨0, rfl, le_refl 0⟩
  · -- affinity
    rw [hM, finalize_affinity_entry]
    set R2 := pruneTopK (bandZero G width) t (k?.getD (kDefault t width)) with hR2def
    have hR2 : ∀ p q, 0 ≤ R2 p q :=
      pruneTopK_bandZero_nonneg G width t (k?.getD (kDefault t width)) hG
    set R4 := symmetrize (selfDiag R2 self "affinity") sym with hR4def
    have hneg4 : ∀ p q, R4 p q < 0 → p = q := by
      intro p q hpq
      rcases symmetrize_neg _ sym p q hpq with h' | h'
      · exact selfDiag_affinity_neg R2 self hR2 p q h'
      · exact (selfDiag_affinity_neg R2 self hR2 q p h').symm
    by_cases hcond : i < t ∧ j < t ∧ R4 i j ≠ 0
    case neg =>
      rw [if_neg hcond]
      exact Or.inl rfl
    rw [if_pos hcond]
    cases bw? with
    | some b =>
      have hpos : 0 < b := hbw b rfl
      refine Or.inr (Or.inr ⟨_, rfl, Real.exp_pos _, ?_⟩)
      rw [Real.exp_le_one_iff]
      refine div_nonpos_iff.mpr (Or.inl ⟨?_, ?_⟩)
      · exact_mod_cast le_max_right (R4 i j) 0
      · have : (0 : ℝ) < (b : ℝ) := by exact_mod_cast hpos
        linarith
    | none =>
      cases hmedEq : median (rowMaxData R4 t) with
      | none => exact Or.inr (Or.inl rfl)
      | some b =>
        refine Or.inr (Or.inr ⟨_, rfl, Real.exp_pos _, ?_⟩)
        rw [Real.exp_le_one_iff]
        by_cases hbpos : 0 < b
        · refine div_nonpos_iff.mpr (Or.inl ⟨?_, ?_⟩)
          · exact_mod_cast le_max_right (R4 i j) 0
          · have : (0 : ℝ) < (b : ℝ) := by exact_mod_cast hbpos
            linarith
        · have hble : b ≤ 0 := not_lt.mp hbpos
          have ht1 : t ≤ 1 := by
            by_contra ht2
            have h2t : 2 ≤ t := by omega
            have hpos := median_pos (rowMaxData R4 t)
              (rowMaxData_pos R4 t (fun p q _ _ hneg' => hneg4 p q hneg') h2t) b hmedEq
            exact absurd hpos (not_lt.mpr hble)
          have hij : i = j := by omega
          have hdiag : R4 i j ≤ 0 := by
            rw [hij, hR4def, hR2def]
            exact pipeline_affinity_diag_nonpos G t (k?.getD (kDefault t width)) width
              sym self hw1 j
          have hmax : max (R4 i j) 0 = 0 := max_eq_right hdiag
          rw [hmax]
          norm_num

/-- A k-NN distance graph for two observations at distance `1`. -/
def c3G : ℕ → ℕ → ℚ := fun i j => if i = j then 0 else 1

/-- Counterexample for C3 as stated: with `mode='affinity'`,
`width = t = 2` and `self=True`, the exclusion band removes every
neighbor, each row max is masked to zero, `np.nanmedian([])` is NaN,
and the sentinel diagonal entries become NaN (`none`) — a nonzero
entry that is not a real number in `(0, 1]`. -/
theorem recurrence_matrix_affinity_counterexample :
    ¬ (∀ i j : ℕ, ∃ v : ℝ,
      (matOf (some 0)
        (recurrence_matrix c3G 2 (some 2) 2 false true "affinity" none)).entry i j
        = some v ∧ (v = 0 ∨ (0 < v ∧ v ≤ 1))) := by
  intro hAll
  obtain ⟨v, hv, -⟩ := hAll 0 0
  have he : (matOf (some 0)
      (recurrence_matrix c3G 2 (some 2) 2 false true "affinity" none)).entry 0 0
      = none := rfl
  rw [he] at hv
  exact absurd hv (by simp)

/-- The matrix produced in the C3 witness run (supplied bandwidth). -/
noncomputable def c3wMat : Mat (Option ℝ) :=
  matOf (some 0) (recurrence_matrix c3G 2 (some 2) 1 false false "affinity" (some 1))

/-- Witness for C3 (amended): a concrete affinity run with a supplied
bandwidth where the range statement is instantiated at entry `(0,1)`. -/
theorem recurrence_matrix_value_ranges_witness :
    (∀ i j, 0 ≤ c3G i j) ∧
    recurrence_matrix c3G 2 (some 2) 1 false false "affinity" (some 1) = .ok c3wMat ∧
    (c3wMat.entry 0 1 = some 0 ∨ c3wMat.entry 0 1 = none ∨
      ∃ v : ℝ, c3wMat.entry 0 1 = some v ∧ 0 < v ∧ v ≤ 1) := by
  have hG : ∀ i j, 0 ≤ c3G i j := by
    intro i j
    unfold c3G
    split_ifs <;> norm_num
  exact ⟨hG, rfl,
    (recurrence_matrix_value_ranges c3G 2 (some 2) 1 false false "affinity" (some 1)
      c3wMat hG rfl).2.2 rfl 0 1⟩

/-! ## PathEnhancer: `path_enhance`

`segment.py:754-883`.  The per-ratio kernel construction
(`filters.diagonal_filter`, librosa code outside this module) composed
with the external convolution primitive `scipy.ndimage.convolve` is
abstracted as an arbitrary function `conv : ℝ → Mat ℝ → Mat ℝ` from the
slope ratio to the convolution response (the relevant claims quantify
over every behavior of this collaborator).  The ratio generation and
the max/clip aggregation are the module's own code and are embedded
directly.
-/

/-- `np.logspace(np.log2(min_ratio), np.log2(max_ratio), num=n_filters,
base=2)` (`segment.py:870`): `n_filters` exponents evenly spaced in
log2 space, endpoints included.  numpy divides the span by `num - 1`
and multiplies by the index; for `num = 1` the step vanishes and only
the start point remains, which the real-division convention `x / 0 = 0`
reproduces exactly. -/
noncomputable def logspaceRatios (minR maxR : ℝ) (nf : ℕ) : List ℝ :=
  (List.range nf).map fun i : ℕ =>
    (2 : ℝ) ^ (Real.logb 2 minR +
      (i : ℝ) * (Real.logb 2 maxR - Real.logb 2 minR) / ((nf : ℝ) - 1))

/-- Ratio setup of `path_enhance` (`segment.py:864-870`): a missing
`min_ratio` defaults to `1/max_ratio`; a supplied `min_ratio` greater
than `max_ratio` raises `ParameterError`; then the slope ratios are
generated by `np.logspace` in base 2. -/
noncomputable def path_enhance_ratios (maxR : ℝ) (minR? : Option ℝ) (nf : ℕ) :
    Except Err (List ℝ) :=
  match minR? with
  | none => .ok (logspaceRatios (1 / maxR) maxR nf)
  | some m => if maxR < m then .error .paramError else .ok (logspaceRatios m maxR nf)

/-- `np.maximum(A, B)` on same-shape matrices (`segment.py:877-878`). -/
def matMax (A B : Mat ℝ) : Mat ℝ :=
  ⟨A.rows, A.cols, fun r c => max (A.entry r c) (B.entry r c)⟩

/-- `np.clip(A, 0, None)` (`segment.py:880-882`): clamp negatives. -/
def matClip (A : Mat ℝ) : Mat ℝ :=
  ⟨A.rows, A.cols, fun r c => max (A.entry r c) 0⟩

/-- One iteration of the smoothing loop (`segment.py:873-878`): the
first response initializes the accumulator, later responses are folded
in by elementwise maximum. -/
def convAccum (conv : ℝ → Mat ℝ → Mat ℝ) (R : Mat ℝ) (acc : Option (Mat ℝ)) (ρ : ℝ) :
    Option (Mat ℝ) :=
  match acc with
  | none => some (conv ρ R)
  | some S => some (matMax S (conv ρ R))

/-- `path_enhance(R, n, window, max_ratio, min_ratio, n_filters,
zero_mean, clip, **kwargs)` (`segment.py:754-883`), with the kernel
generation plus convolution abstracted as `conv`.

The accumulator starts as `None` (`segment.py:869`); the loop over the
generated ratios convolves and takes the running elementwise maximum
(`segment.py:870-878`).  If `clip` is set, `np.clip(R_smooth, 0, None,
out=R_smooth)` runs (`segment.py:880-882`); applied to the `None`
accumulator (possible only when the ratio list is empty, i.e.
`n_filters = 0`) numpy raises `TypeError`, since clipping compares
`None` against `0`.  The Python return value `None` is `Option.none`. -/
noncomputable def path_enhance (conv : ℝ → Mat ℝ → Mat ℝ) (R : Mat ℝ) (maxR : ℝ)
    (minR? : Option ℝ) (nf : ℕ) (clip : Bool) : Except Err (Option (Mat ℝ)) :=
  match path_enhance_ratios maxR minR? nf with
  | .error e => .error e
  | .ok ratios =>
    let Rsm : Option (Mat ℝ) := ratios.foldl (convAccum conv R) none
    if clip then
      match Rsm with
      | none => .error .typeError
      | some S => .ok (some (matClip S))
    else .ok Rsm

/-- In-bounds default access into a mapped range. -/
theorem getD_map_range (f : ℕ → ℝ) (n i : ℕ) (h : i < n) :
    ((List.range n).map f).getD i 0 = f i := by
  have hlen : i < ((List.range n).map f).length := by
    rw [List.length_map, List.length_range]
    exact h
  rw [List.getD_eq_getElem _ _ hlen, List.getElem_map, List.getElem_range]

/-- In-bounds element of the generated ratio list. -/
theorem logspaceRatios_getD (minR maxR : ℝ) (nf i : ℕ) (h : i < nf) :
    (logspaceRatios minR maxR nf).getD i 0 =
      (2 : ℝ) ^ (Real.logb 2 minR +
        (i : ℝ) * (Real.logb 2 maxR - Real.logb 2 minR) / ((nf : ℝ) - 1)) := by
  rw [logspaceRatios, getD_map_range _ _ _ h]

/-- C5: `path_enhance` generates exactly `n_filters` slope ratios,
uniformly spaced in log2 space, with `min_ratio` and `max_ratio`
included as the endpoints; and in the concrete scenario
`max_ratio = 2.0`, `min_ratio` omitted (hence `1/2`), `n_filters = 3`,
the generated ratios are exactly `[1/2, 1, 2]`. -/
theorem path_enhance_ratio_spacing (minR maxR : ℝ) (hmin : 0 < minR) (hmax : 0 < maxR)
    (nf : ℕ) (hnf : 2 ≤ nf) :
    ((logspaceRatios minR maxR nf).length = nf ∧
     (logspaceRatios minR maxR nf).getD 0 0 = minR ∧
     (logspaceRatios minR maxR nf).getD (nf - 1) 0 = maxR ∧
     (∀ i, i + 1 < nf →
       Real.logb 2 ((logspaceRatios minR maxR nf).getD (i + 1) 0) -
         Real.logb 2 ((logspaceRatios minR maxR nf).getD i 0) =
       (Real.logb 2 maxR - Real.logb 2 minR) / ((nf : ℝ) - 1))) ∧
    logspaceRatios (1 / 2) 2 3 = [1 / 2, 1, 2] := by
  have h2pos : (0 : ℝ) < 2 := by norm_num
  have h2ne : (2 : ℝ) ≠ 1 := by norm_num
  constructor
  · refine ⟨?_, ?_, ?_, ?_⟩
    · simp [logspaceRatios]
    · rw [logspaceRatios_getD _ _ _ 0 (by omega)]
      norm_num
      exact Real.rpow_logb h2pos h2ne hmin
    · rw [logspaceRatios_getD _ _ _ (nf - 1) (by omega)]
      have hone : (1 : ℕ) ≤ nf := by omega
      have hcast : ((nf - 1 : ℕ) : ℝ) = (nf : ℝ) - 1 := by
        push_cast [hone]
        ring
      have hne : (nf : ℝ) - 1 ≠ 0 := by
        have h2le : (2 : ℝ) ≤ (nf : ℝ) := by exact_mod_cast hnf
        intro hzero
        rw [sub_eq_zero] at hzero
        rw [hzero] at h2le
        linarith
      have hexp : Real.logb 2 minR +
          ((nf : ℝ) - 1) * (Real.logb 2 maxR - Real.logb 2 minR) / ((nf : ℝ) - 1) =
          Real.logb 2 maxR := by
        rw [mul_div_assoc, mul_comm, div_mul_cancel₀ _ hne]
        ring
      rw [hcast, hexp]
      exact Real.rpow_logb h2pos h2ne hmax
    · intro i hi
      rw [logspaceRatios_getD _ _ _ (i + 1) (by omega), logspaceRatios_getD _ _ _ i (by omega),
        Real.logb_rpow h2pos h2ne, Real.logb_rpow h2pos h2ne]
      push_cast
      ring
  · have h3 : List.range 3 = [0, 1, 2] := by decide
    have hl2 : Real.logb 2 (1 / 2 : ℝ) = -1 := by
      rw [one_div, Real.logb_inv, Real.logb_self_eq_one (by norm_num)]
    have hl2' : Real.logb 2 (2 : ℝ) = 1 := Real.logb_self_eq_one (by norm_num)
    rw [logspaceRatios, h3]
    simp only [List.map_cons, List.map_nil, hl2, hl2', List.cons.injEq, and_true]
    refine ⟨?_, ?_, ?_⟩
    · have he : (-1 : ℝ) + ((0 : ℕ) : ℝ) * ((1 : ℝ) - -1) / (((3 : ℕ) : ℝ) - 1) =
          ((-1 : ℤ) : ℝ) := by
        push_cast
        ring
      rw [he, Real.rpow_intCast]
      norm_num
    · have he : (-1 : ℝ) + ((1 : ℕ) : ℝ) * ((1 : ℝ) - -1) / (((3 : ℕ) : ℝ) - 1) =
          ((0 : ℤ) : ℝ) := by
        push_cast
        norm_num
      rw [he, Real.rpow_intCast]
      norm_num
    · have he : (-1 : ℝ) + ((2 : ℕ) : ℝ) * ((1 : ℝ) - -1) / (((3 : ℕ) : ℝ) - 1) =
          ((1 : ℤ) : ℝ) := by
        push_cast
        norm_num
      rw [he, Real.rpow_intCast]
      norm_num

/-- Reduction of `path_enhance` once the ratio setup succeeded. -/
theorem path_enhance_cases (conv : ℝ → Mat ℝ → Mat ℝ) (R : Mat ℝ) (maxR : ℝ)
    (minR? : Option ℝ) (nf : ℕ) (clip : Bool) (ratios : List ℝ)
    (hr : path_enhance_ratios maxR minR? nf = .ok ratios) :
    path_enhance conv R maxR minR? nf clip =
      (if clip then
        match ratios.foldl (convAccum conv R) none with
        | none => .error .typeError
        | some S => .ok (some (matClip S))
      else .ok (ratios.foldl (convAccum conv R) none)) := by
  unfold path_enhance
  rw [hr]

/-- Witness for C5: the ratio properties at `min_ratio = 1/2`,
`max_ratio = 2`, `n_filters = 3`. -/
theorem path_enhance_ratio_spacing_witness :
    (0 : ℝ) < 1 / 2 ∧ (0 : ℝ) < 2 ∧ 2 ≤ 3 ∧
    (((logspaceRatios (1 / 2) 2 3).length = 3 ∧
      (logspaceRatios (1 / 2) 2 3).getD 0 0 = 1 / 2 ∧
      (logspaceRatios (1 / 2) 2 3).getD (3 - 1) 0 = 2 ∧
      (∀ i, i + 1 < 3 →
        Real.logb 2 ((logspaceRatios (1 / 2) 2 3).getD (i + 1) 0) -
          Real.logb 2 ((logspaceRatios (1 / 2) 2 3).getD i 0) =
        (Real.logb 2 2 - Real.logb 2 (1 / 2)) / (((3 : ℕ) : ℝ) - 1))) ∧
     logspaceRatios (1 / 2) 2 3 = [1 / 2, 1, 2]) :=
  ⟨by norm_num, by norm_num, by norm_num,
    path_enhance_ratio_spacing (1 / 2) 2 (by norm_num) (by norm_num) 3 (by norm_num)⟩

/-- A successful ratio setup means `path_enhance` cannot raise
`ParameterError` (the only remaining failure is the `TypeError` from
clipping a `None` accumulator). -/
theorem path_enhance_ok_ratios_ne_param (conv : ℝ → Mat ℝ → Mat ℝ) (R : Mat ℝ)
    (maxR : ℝ) (minR? : Option ℝ) (nf : ℕ) (clip : Bool) (ratios : List ℝ)
    (hr : path_enhance_ratios maxR minR? nf = .ok ratios) :
    path_enhance conv R maxR minR? nf clip ≠ .error .paramError := by
  intro hcontra
  rw [path_enhance_cases conv R maxR minR? nf clip ratios hr] at hcontra
  cases clip with
  | false => simp at hcontra
  | true =>
    rw [if_pos rfl] at hcontra
    cases hfold : ratios.foldl (convAccum conv R) none with
    | none =>
      rw [hfold] at hcontra
      simp only [Except.error.injEq] at hcontra
      exact absurd hcontra (by decide)
    | some S =>
      rw [hfold] at hcontra
      simp at hcontra

/-- C8: `min_ratio` defaults to `1/max_ratio` when not supplied, and
`path_enhance` raises `ParameterError` if and only if a supplied
`min_ratio` exceeds `max_ratio`; with the default it never raises
`ParameterError`. -/
theorem path_enhance_min_ratio_default (conv : ℝ → Mat ℝ → Mat ℝ) (R : Mat ℝ)
    (maxR m : ℝ) (nf : ℕ) (clip : Bool) :
    path_enhance_ratios maxR none nf = .ok (logspaceRatios (1 / maxR) maxR nf) ∧
    ((path_enhance_ratios maxR (some m) nf).isOk = true ↔ m ≤ maxR) ∧
    (path_enhance conv R maxR (some m) nf clip = .error .paramError ↔ maxR < m) ∧
    path_enhance conv R maxR none nf clip ≠ .error .paramError := by
  refine ⟨rfl, ?_, ?_, ?_⟩
  · by_cases h : maxR < m
    · refine iff_of_false ?_ (not_le.mpr h)
      simp [path_enhance_ratios, h, Except.isOk, Except.toBool]
    · refine iff_of_true ?_ (not_lt.mp h)
      simp [path_enhance_ratios, h, Except.isOk, Except.toBool]
  · by_cases h : maxR < m
    · refine iff_of_true ?_ h
      have hrat : path_enhance_ratios maxR (some m) nf = .error .paramError := by
        simp [path_enhance_ratios, h]
      unfold path_enhance
      rw [hrat]
    · refine iff_of_false ?_ h
      have hrat : path_enhance_ratios maxR (some m) nf = .ok (logspaceRatios m maxR nf) := by
        simp [path_enhance_ratios, h]
      exact path_enhance_ok_ratios_ne_param conv R maxR (some m) nf clip _ hrat
  · exact path_enhance_ok_ratios_ne_param conv R maxR none nf clip _ rfl

/-- C9: whenever `path_enhance` with `clip=True` returns a matrix, that
matrix has no negative entry, for every input matrix and every behavior
of the external convolution primitive. -/
theorem path_enhance_clip_nonneg (conv : ℝ → Mat ℝ → Mat ℝ) (R : Mat ℝ) (maxR : ℝ)
    (minR? : Option ℝ) (nf : ℕ) (M : Mat ℝ)
    (h : path_enhance conv R maxR minR? nf true = .ok (some M)) :
    ∀ r c, 0 ≤ M.entry r c := by
  obtain ⟨S, hS⟩ : ∃ S, M = matClip S := by
    cases hr : path_enhance_ratios maxR minR? nf with
    | error e =>
      unfold path_enhance at h
      rw [hr] at h
      simp at h
    | ok ratios =>
      rw [path_enhance_cases conv R maxR minR? nf true ratios hr, if_pos rfl] at h
      cases hfold : ratios.foldl (convAccum conv R) none with
      | none =>
        rw [hfold] at h
        simp at h
      | some S =>
        rw [hfold] at h
        simp only [Except.ok.injEq, Option.some.injEq] at h
        exact ⟨S, h.symm⟩
  rw [hS]
  intro r c
  exact le_max_right _ _

/-- A constant convolution response used in the PathEnhancer witnesses:
a 1×1 matrix holding `-5`. -/
noncomputable def cK : Mat ℝ := ⟨1, 1, fun _ _ => -5⟩

/-- A convolution collaborator that always returns `cK`. -/
noncomputable def cConv : ℝ → Mat ℝ → Mat ℝ := fun _ _ => cK

/-- A 1×1 zero input matrix for the PathEnhancer witnesses. -/
noncomputable def cR : Mat ℝ := ⟨1, 1, fun _ _ => 0⟩

/-- Witness for C9: a concrete run whose (negative) convolution
response is clipped to a nonnegative result. -/
theorem path_enhance_clip_nonneg_witness :
    path_enhance cConv cR 2 none 1 true = .ok (some (matClip cK)) ∧
    0 ≤ (matClip cK).entry 0 0 := by
  have he : path_enhance cConv cR 2 none 1 true = .ok (some (matClip cK)) := by
    rw [path_enhance_cases cConv cR 2 none 1 true _ rfl, if_pos rfl]
    have hfold : (logspaceRatios (1 / 2) 2 1).foldl (convAccum cConv cR) none = some cK := by
      have h1 : List.range 1 = [0] := by decide
      simp [logspaceRatios, h1, convAccum, cConv]
    rw [hfold]
  exact ⟨he, path_enhance_clip_nonneg cConv cR 2 none 1 (matClip cK) he 0 0⟩

/-- C10 (amended): with `n_filters = 0` the kernel loop never runs and
the accumulator stays `None`; with `clip=False` the function then
returns `None` without raising, but with the default `clip=True`,
`np.clip(None, 0, None)` raises `TypeError` — so the call does not
return `None` under the default parameters. -/
theorem path_enhance_zero_filters (conv : ℝ → Mat ℝ → Mat ℝ) (R : Mat ℝ) (maxR : ℝ) :
    path_enhance conv R maxR none 0 false = .ok none ∧
    path_enhance conv R maxR none 0 true = .error .typeError := by
  have hrat : path_enhance_ratios maxR none 0 = .ok ([] : List ℝ) := by
    simp [path_enhance_ratios, logspaceRatios]
  constructor
  · rw [path_enhance_cases conv R maxR none 0 false [] hrat]
    simp [convAccum]
  · rw [path_enhance_cases conv R maxR none 0 true [] hrat]
    simp [convAccum]

/-- Counterexample for C10 as stated: with `n_filters = 0` and the
default `clip=True`, `path_enhance` raises `TypeError` instead of
returning `None`. -/
theorem path_enhance_zero_filters_counterexample :
    path_enhance cConv cR 2 none 0 true = .error .typeError ∧
    (Except.error Err.typeError : Except Err (Option (Mat ℝ))) ≠ .ok none := by
  constructor
  · unfold path_enhance
    have hrat : path_enhance_ratios (2 : ℝ) none 0 = .ok ([] : List ℝ) := by
      simp [path_enhance_ratios, logspaceRatios]
    rw [hrat]
    simp
  · simp
